import Mathlib

/-!
Shallow embedding of the lruCache repository (Go).

Two implementations are embedded:

* namespace `Lru`    — src/lru.go (package lrucache): the TTL-capable cache with a
  background sweeper.
* namespace `Simple` — src/lruCache.go (package lruCache): the standalone cache
  without TTL.

Modelling conventions:
* The doubly-linked recency list (`container/list`) is a Lean `List` whose head is
  the front (most recently used) and whose last element is the back.
* The hash table `items : map[Key]*list.Element` maps each present key to the unique
  queue node holding it; we model its domain as a `List Key` and recover the node a
  key maps to with `findByKey` on the queue (the map and the list always point at
  the same nodes in the Go code).
* Time is an explicit integer timestamp (`now`, nanoseconds like Go's
  `time.Time`/`time.Duration`); `time.Now().Add(ttl)` becomes `now + ttl` and
  `time.Until(e) > 0` becomes `0 < e - now`.  The zero `time.Time` is `0`.
* The background goroutine is modelled by the flags `hasCancel` (the cancel handle
  is non-nil) and `sweeperRunning`, plus the `tick` function that fires the sweep
  exactly when the sweeper has not been cancelled.
-/

/-- Go: `type Key string` (both packages). -/
abbrev Key := String

/-- Construction failures of `New`/`WithTTL` (src/lru.go) and `New`
(src/lruCache.go), one constructor per `errors.New` message in the source. -/
inductive CacheErr where
  | capMustBePositive
  | ttlMustBePositive
  | ticksMustBeGreaterOne
deriving DecidableEq

/-- The two failure kinds named by the spec: `InvalidCapacity`, `InvalidTTLConfig`. -/
inductive ErrKind where
  | invalidCapacity
  | invalidTTLConfig
deriving DecidableEq

/-- Classifies each concrete construction error under the spec's taxonomy. -/
def CacheErr.kind : CacheErr → ErrKind
  | .capMustBePositive => .invalidCapacity
  | .ttlMustBePositive => .invalidTTLConfig
  | .ticksMustBeGreaterOne => .invalidTTLConfig

/-- The node a key maps to: models the hash-table read `l.items[key]`, whose target
is the unique queue node holding that key (first occurrence in the ordering). -/
def findByKey (keyOf : α → Key) (k : Key) : List α → Option α
  | [] => none
  | x :: xs => if keyOf x = k then some x else findByKey keyOf k xs

/-- Unlinking a node from the ordering: models the removal step of
`list.MoveToFront`/`list.Remove` applied to the node holding key `k`. -/
def removeByKey (keyOf : α → Key) (k : Key) : List α → List α
  | [] => []
  | x :: xs => if keyOf x = k then xs else x :: removeByKey keyOf k xs

namespace Lru

/-- src/lru.go `listItem`. -/
structure ListItem (V : Type) where
  key : Key
  value : V
  expiresAt : Int
deriving DecidableEq

/-- src/lru.go `LRUCache`: `cap`, `ttl`, the cancel handle (`hasCancel`, with
`sweeperRunning` tracking whether the spawned goroutine is still live),
`sweeperPeriod` (the ticker period `ttl / ticks`), the hash-table domain `items`
and the order list `queue` (head = front). -/
structure LRUCache (V : Type) where
  cap : Int
  ttl : Int
  hasCancel : Bool
  sweeperRunning : Bool
  sweeperPeriod : Int
  items : List Key
  queue : List (ListItem V)
deriving DecidableEq

/-- src/lru.go `Option`: a validation/configuration step run by `New`. -/
abbrev CacheOption (V : Type) := LRUCache V → Except CacheErr (LRUCache V)

/-- src/lru.go `New`: rejects `cap <= 0`, otherwise folds the options over the
freshly initialised cache, stopping at the first failing option. -/
def New (cap : Int) (options : List (CacheOption V)) : Except CacheErr (LRUCache V) :=
  if cap ≤ 0 then Except.error CacheErr.capMustBePositive
  else
    options.foldlM (fun l opt => opt l)
      { cap := cap, ttl := 0, hasCancel := false, sweeperRunning := false,
        sweeperPeriod := 0, items := [], queue := [] }

/-- src/lru.go `WithTTL`: validates `ttl > 0` and `ticks > 1`, then records the
ttl, creates the cancel handle and starts the sweeper goroutine with ticker
period `ttl / time.Duration(ticks)`. -/
def WithTTL (ttl : Int) (ticks : Int) : CacheOption V := fun l =>
  if ttl ≤ 0 then Except.error CacheErr.ttlMustBePositive
  else if ticks ≤ 1 then Except.error CacheErr.ticksMustBeGreaterOne
  else Except.ok { l with ttl := ttl, hasCancel := true, sweeperRunning := true,
                          sweeperPeriod := ttl / ticks }

/-- src/lru.go `deleteItem` applied to `l.queue.Back()`: removes the back node from
the order list and deletes its key from the hash table.  (In Go the argument node
is never nil at the call sites; on an empty queue we return the cache unchanged,
a state unreachable there because the call is guarded by `len(items) == cap ≥ 1`
or by a non-nil back node.) -/
def LRUCache.deleteBack (l : LRUCache V) : LRUCache V :=
  match l.queue.getLast? with
  | some it => { l with queue := l.queue.dropLast, items := l.items.erase it.key }
  | none => l

/-- src/lru.go `Set`: builds the new item (stamping `expiresAt = now + ttl` when
ttl is enabled, zero `time.Time` otherwise); if the key is present, overwrites the
node's item and moves the node to the front, returning true; otherwise evicts the
back node when the index is at capacity, pushes the new item at the front, stores
it in the index and returns false. -/
def LRUCache.Set (l : LRUCache V) (now : Int) (key : Key) (value : V) :
    LRUCache V × Bool :=
  let newItem : ListItem V :=
    { key := key, value := value,
      expiresAt := if 0 < l.ttl then now + l.ttl else 0 }
  if key ∈ l.items then
    ({ l with queue := newItem :: removeByKey ListItem.key key l.queue }, true)
  else
    let l1 := if (l.items.length : Int) = l.cap then l.deleteBack else l
    ({ l1 with items := key :: l1.items,
               queue := newItem :: l1.queue }, false)

/-- src/lru.go `Get`: absent keys return `(nil, false)` with no side effect;
present keys have their item's `expiresAt` refreshed to `now + ttl` when ttl is
enabled, the node is moved to the front, and `(value, true)` is returned.
`Get` never compares `expiresAt` with the current time.  (The inner `none`
branch is unreachable: the index always maps a present key to its queue node.) -/
def LRUCache.Get (l : LRUCache V) (now : Int) (key : Key) :
    LRUCache V × Option V × Bool :=
  if key ∈ l.items then
    match findByKey ListItem.key key l.queue with
    | some it =>
        let li : ListItem V :=
          if 0 < l.ttl then { it with expiresAt := now + l.ttl } else it
        ({ l with queue := li :: removeByKey ListItem.key key l.queue },
         some li.value, true)
    | none => (l, none, false)
  else (l, none, false)

/-- src/lru.go `Clear`: when the cancel handle exists, cancels the sweeper
goroutine and zeroes the ttl; then empties both the hash table and the order
list. -/
def LRUCache.Clear (l : LRUCache V) : LRUCache V :=
  let l1 := if l.hasCancel then { l with sweeperRunning := false, ttl := 0 } else l
  { l1 with items := [], queue := [] }

/-- The loop of src/lru.go `clearExpired`, acting on the reversed queue (so the
Go scan from `queue.Back()` towards the front is structural recursion here): stop
as soon as `time.Until(expiresAt) > 0`, otherwise delete the node from the order
list and from the hash table and continue with the next node towards the front. -/
def sweepRev (now : Int) : List (ListItem V) → List Key → List (ListItem V) × List Key
  | [], items => ([], items)
  | it :: rest, items =>
      if 0 < it.expiresAt - now then (it :: rest, items)
      else sweepRev now rest (items.erase it.key)

/-- src/lru.go `clearExpired`: on a non-empty queue, sweep expired nodes starting
from the back, stopping at the first node whose expiration is in the future. -/
def clearExpired (l : LRUCache V) (now : Int) : LRUCache V :=
  if l.queue.length = 0 then l
  else
    let swept := sweepRev now l.queue.reverse l.items
    { l with queue := swept.1.reverse, items := swept.2 }

/-- One firing of the sweeper goroutine's select loop (src/lru.go `WithTTL`): if
the context has been cancelled the goroutine has exited and nothing happens,
otherwise the ticker fires `l.cf(l) = clearExpired`. -/
def tick (l : LRUCache V) (now : Int) : LRUCache V :=
  if l.sweeperRunning then clearExpired l now else l

/-- Well-formedness of a reachable cache state: the hash-table domain is
duplicate-free and is exactly (up to order) the multiset of keys on the order
list; the capacity is positive and bounds the index size; the sweeper only runs
when the cancel handle exists; the ttl is non-negative and only positive when the
cancel handle exists. -/
def WF (l : LRUCache V) : Prop :=
  l.items.Nodup ∧
  (l.queue.map ListItem.key).Perm l.items ∧
  0 < l.cap ∧
  (l.items.length : Int) ≤ l.cap ∧
  (l.sweeperRunning = true → l.hasCancel = true) ∧
  0 ≤ l.ttl ∧
  (0 < l.ttl → l.hasCancel = true)

end Lru

namespace Simple

/-- src/lruCache.go `listItem`. -/
structure ListItem (V : Type) where
  key : Key
  value : V
deriving DecidableEq

/-- src/lruCache.go `LRUCache`: capacity, hash-table domain and order list. -/
structure LRUCache (V : Type) where
  cap : Int
  items : List Key
  queue : List (ListItem V)
deriving DecidableEq

/-- src/lruCache.go `New`: rejects `cap <= 0`. -/
def New (cap : Int) : Except CacheErr (LRUCache V) :=
  if cap ≤ 0 then Except.error CacheErr.capMustBePositive
  else Except.ok { cap := cap, items := [], queue := [] }

/-- src/lruCache.go `Set`: on a present key, overwrite the node's `value` field in
place and move the node to the front, returning true; otherwise remove the back
node (from both order list and hash table) when the index is at capacity, push
the new item at the front, store it in the index and return false. -/
def LRUCache.Set (l : LRUCache V) (key : Key) (value : V) : LRUCache V × Bool :=
  if key ∈ l.items then
    match findByKey ListItem.key key l.queue with
    | some it =>
        ({ l with queue := { it with value := value } ::
                             removeByKey ListItem.key key l.queue }, true)
    | none => (l, true)
  else
    let l1 :=
      if (l.items.length : Int) = l.cap then
        match l.queue.getLast? with
        | some it =>
            { l with queue := l.queue.dropLast, items := l.items.erase it.key }
        | none => l
      else l
    ({ l1 with items := key :: l1.items,
               queue := { key := key, value := value } :: l1.queue }, false)

/-- src/lruCache.go `Get`: absent keys return `(nil, false)`; present keys are
moved to the front and `(value, true)` is returned. -/
def LRUCache.Get (l : LRUCache V) (key : Key) : LRUCache V × Option V × Bool :=
  if key ∈ l.items then
    match findByKey ListItem.key key l.queue with
    | some it =>
        ({ l with queue := it :: removeByKey ListItem.key key l.queue },
         some it.value, true)
    | none => (l, none, false)
  else (l, none, false)

/-- src/lruCache.go `Clear`: empties both the hash table and the order list. -/
def LRUCache.Clear (l : LRUCache V) : LRUCache V :=
  { l with items := [], queue := [] }

end Simple

/-- Which of the exported operations of src/lru.go acquire the mutex `l.mu` for
their critical section, read off the source: `Set` locks at line 98, `Get` at
line 118 and the sweeper body `clearExpired` at line 147, each with a deferred
unlock; `Clear` (lines 135-143) mutates `cancel`, `ttl`, `items` and `queue`
without ever touching `l.mu`. -/
inductive CacheFun where
  | fSet
  | fGet
  | fClear
  | fSweepTick
deriving DecidableEq

/-- True exactly for the operations whose body takes `l.mu.Lock()` (src/lru.go). -/
def acquiresMu : CacheFun → Bool
  | .fSet => true
  | .fGet => true
  | .fClear => false
  | .fSweepTick => true

/-! ### Helper lemmas about `findByKey` and `removeByKey` -/

section KeyHelpers

variable {α β : Type} {keyOf : α → Key} {k k' : Key} {x : α} {xs : List α}

theorem findByKey_key (h : findByKey keyOf k xs = some x) : keyOf x = k := by
  induction xs with
  | nil => simp [findByKey] at h
  | cons y ys ih =>
    by_cases hy : keyOf y = k
    · simp [findByKey, hy] at h
      subst h; exact hy
    · simp [findByKey, hy] at h
      exact ih h

theorem findByKey_mem (h : findByKey keyOf k xs = some x) : x ∈ xs := by
  induction xs with
  | nil => simp [findByKey] at h
  | cons y ys ih =>
    by_cases hy : keyOf y = k
    · simp [findByKey, hy] at h
      simp [h]
    · simp [findByKey, hy] at h
      exact List.mem_cons_of_mem _ (ih h)

theorem findByKey_eq_none_iff :
    findByKey keyOf k xs = none ↔ k ∉ xs.map keyOf := by
  induction xs with
  | nil => simp [findByKey]
  | cons y ys ih =>
    by_cases hy : keyOf y = k
    · simp [findByKey, hy]
    · simp [findByKey, hy, ih, Ne.symm hy]

theorem findByKey_isSome_of_mem (h : k ∈ xs.map keyOf) :
    ∃ x, findByKey keyOf k xs = some x := by
  cases hf : findByKey keyOf k xs with
  | none => exact absurd h (findByKey_eq_none_iff.mp hf)
  | some x => exact ⟨x, rfl⟩

theorem removeByKey_sublist : (removeByKey keyOf k xs).Sublist xs := by
  induction xs with
  | nil => simp [removeByKey]
  | cons y ys ih =>
    by_cases hy : keyOf y = k
    · simp only [removeByKey, hy, if_pos]
      exact List.sublist_cons_self y ys
    · simpa [removeByKey, hy] using ih.cons₂ y

theorem map_removeByKey :
    (removeByKey keyOf k xs).map keyOf = (xs.map keyOf).erase k := by
  induction xs with
  | nil => simp [removeByKey]
  | cons y ys ih =>
    by_cases hy : keyOf y = k
    · simp [removeByKey, hy, List.erase_cons_head]
    · have : ¬((keyOf y == k) = true) := by simpa using hy
      simp [removeByKey, hy, List.erase_cons_tail this, ih]

theorem removeByKey_eq_self (h : k ∉ xs.map keyOf) :
    removeByKey keyOf k xs = xs := by
  induction xs with
  | nil => simp [removeByKey]
  | cons y ys ih =>
    simp only [List.map_cons, List.mem_cons, not_or] at h
    have h1 : keyOf y ≠ k := fun hh => h.1 hh.symm
    simp [removeByKey, h1, ih h.2]

theorem findByKey_removeByKey_ne (hne : k' ≠ k) :
    findByKey keyOf k' (removeByKey keyOf k xs) = findByKey keyOf k' xs := by
  induction xs with
  | nil => simp [removeByKey]
  | cons y ys ih =>
    by_cases hy : keyOf y = k
    · have hy' : keyOf y ≠ k' := by rw [hy]; exact fun h => hne h.symm
      simp [removeByKey, findByKey, hy, hy', Ne.symm hne]
    · by_cases hy' : keyOf y = k'
      · simp [removeByKey, findByKey, hy, hy', hne]
      · simp [removeByKey, findByKey, hy, hy', ih]

theorem length_removeByKey_of_mem (h : k ∈ xs.map keyOf) :
    (removeByKey keyOf k xs).length + 1 = xs.length := by
  induction xs with
  | nil => simp at h
  | cons y ys ih =>
    by_cases hy : keyOf y = k
    · simp [removeByKey, hy]
    · simp only [List.map_cons, List.mem_cons] at h
      rcases h with h | h

      · exact absurd h.symm hy
      · simp [removeByKey, hy, ← ih h]

theorem removeByKey_map {f : β → α} {g : β → Key} (hg : ∀ b, keyOf (f b) = g b)
    (bs : List β) :
    removeByKey keyOf k (bs.map f) = (removeByKey g k bs).map f := by
  induction bs with
  | nil => simp [removeByKey]
  | cons b rest ih =>
    by_cases hb : g b = k
    · simp [removeByKey, hg, hb]
    · simp [removeByKey, hg, hb, ih]

theorem findByKey_map {f : β → α} {g : β → Key} (hg : ∀ b, keyOf (f b) = g b)
    (bs : List β) :
    findByKey keyOf k (bs.map f) = (findByKey g k bs).map f := by
  induction bs with
  | nil => simp [findByKey]
  | cons b rest ih =>
    by_cases hb : g b = k
    · simp [findByKey, hg, hb]
    · simp [findByKey, hg, hb, ih]

end KeyHelpers

/-! ### Well-formedness is preserved by every operation of src/lru.go -/

namespace Lru

variable {V : Type} {l : LRUCache V} {k : Key} {b it : ListItem V} {now : Int} {v : V}

theorem WF.nodup (h : WF l) : l.items.Nodup := h.1

theorem WF.perm (h : WF l) : (l.queue.map ListItem.key).Perm l.items := h.2.1

theorem WF.capPos (h : WF l) : 0 < l.cap := h.2.2.1

theorem WF.capBound (h : WF l) : (l.items.length : Int) ≤ l.cap := h.2.2.2.1

theorem WF.sweepCancel (h : WF l) : l.sweeperRunning = true → l.hasCancel = true :=
  h.2.2.2.2.1

theorem WF.ttlNonneg (h : WF l) : 0 ≤ l.ttl := h.2.2.2.2.2.1

theorem WF.ttlCancel (h : WF l) : 0 < l.ttl → l.hasCancel = true := h.2.2.2.2.2.2

theorem WF.mk' (h1 : l.items.Nodup) (h2 : (l.queue.map ListItem.key).Perm l.items)
    (h3 : 0 < l.cap) (h4 : (l.items.length : Int) ≤ l.cap)
    (h5 : l.sweeperRunning = true → l.hasCancel = true) (h6 : 0 ≤ l.ttl)
    (h7 : 0 < l.ttl → l.hasCancel = true) : WF l :=
  ⟨h1, h2, h3, h4, h5, h6, h7⟩

theorem WF.keysNodup (h : WF l) : (l.queue.map ListItem.key).Nodup :=
  h.perm.nodup_iff.mpr h.nodup

theorem WF.mem_queue_iff (h : WF l) : k ∈ l.queue.map ListItem.key ↔ k ∈ l.items :=
  h.perm.mem_iff

theorem WF.len_queue (h : WF l) : l.queue.length = l.items.length := by
  simpa using h.perm.length_eq

/-- A full well-formed cache has a back node. -/
theorem WF.queue_ne_nil_of_full (h : WF l) (hfull : (l.items.length : Int) = l.cap) :
    l.queue ≠ [] := by
  intro hq
  have h0 : l.items.length = 0 := by
    have := h.len_queue
    simp [hq] at this
    omega
  have := h.capPos
  rw [h0] at hfull
  simp at hfull
  omega

theorem queue_split_of_getLast (hb : l.queue.getLast? = some b) :
    l.queue = l.queue.dropLast ++ [b] :=
  (List.dropLast_append_getLast? b hb).symm

theorem back_key_mem (h : WF l) (hb : l.queue.getLast? = some b) : b.key ∈ l.items := by
  have hsplit := queue_split_of_getLast hb
  have : b ∈ l.queue := by rw [hsplit]; simp
  exact h.mem_queue_iff.mp (List.mem_map_of_mem ListItem.key this)

theorem back_key_not_mem_dropLast (h : WF l) (hb : l.queue.getLast? = some b) :
    b.key ∉ l.queue.dropLast.map ListItem.key := by
  have hsplit := queue_split_of_getLast hb
  have hnd := h.keysNodup
  rw [hsplit] at hnd
  simp only [List.map_append, List.map_cons, List.map_nil, List.nodup_append] at hnd
  intro hmem
  exact hnd.2.2 hmem (by simp)

theorem erase_back_key (h : WF l) (hb : l.queue.getLast? = some b) :
    (l.queue.map ListItem.key).erase b.key = l.queue.dropLast.map ListItem.key := by
  have hsplit := queue_split_of_getLast hb
  conv => rw [hsplit]
  rw [List.map_append, List.erase_append_right _ (back_key_not_mem_dropLast h hb)]
  simp

/-- `deleteItem (l.queue.Back())` unfolded, when the queue has a back node. -/
theorem deleteBack_eq (hb : l.queue.getLast? = some b) :
    l.deleteBack =
      { l with queue := l.queue.dropLast, items := l.items.erase b.key } := by
  simp [LRUCache.deleteBack, hb]

theorem WF.deleteBack (h : WF l) : WF l.deleteBack := by
  cases hb : l.queue.getLast? with
  | none => simpa [LRUCache.deleteBack, hb] using h
  | some b =>
    rw [deleteBack_eq hb]
    have hmem := back_key_mem h hb
    refine WF.mk' (List.Nodup.erase _ h.nodup) ?_ h.capPos ?_ h.sweepCancel
      h.ttlNonneg h.ttlCancel
    · show (l.queue.dropLast.map ListItem.key).Perm (l.items.erase b.key)
      rw [← erase_back_key h hb]
      exact h.perm.erase b.key
    · show ((l.items.erase b.key).length : Int) ≤ l.cap
      have h1 : (l.items.erase b.key).length = l.items.length - 1 :=
        List.length_erase_of_mem hmem
      have h2 := h.capBound
      have h3 : 0 < l.items.length := List.length_pos.mpr (List.ne_nil_of_mem hmem)
      omega

/-- `Set` on a present key, unfolded. -/
theorem set_mem_eq (hk : k ∈ l.items) :
    l.Set now k v =
      ({ l with queue :=
          { key := k, value := v,
            expiresAt := if 0 < l.ttl then now + l.ttl else 0 } ::
            removeByKey ListItem.key k l.queue }, true) := by
  simp [LRUCache.Set, hk]

/-- `Set` on an absent key with the index at capacity, unfolded: the back node is
evicted and the new entry pushed at the front. -/
theorem set_full_eq (hk : k ∉ l.items) (hfull : (l.items.length : Int) = l.cap)
    (hb : l.queue.getLast? = some b) :
    l.Set now k v =
      ({ l with
          items := k :: l.items.erase b.key,
          queue :=
            { key := k, value := v,
              expiresAt := if 0 < l.ttl then now + l.ttl else 0 } ::
              l.queue.dropLast }, false) := by
  simp [LRUCache.Set, hk, hfull, LRUCache.deleteBack, hb]

/-- `Set` on an absent key with spare capacity, unfolded: pure insertion. -/
theorem set_spare_eq (hk : k ∉ l.items) (hfull : (l.items.length : Int) ≠ l.cap) :
    l.Set now k v =
      ({ l with
          items := k :: l.items,
          queue :=
            { key := k, value := v,
              expiresAt := if 0 < l.ttl then now + l.ttl else 0 } ::
              l.queue }, false) := by
  simp [LRUCache.Set, hk, hfull]

theorem WF.set (h : WF l) : WF (l.Set now k v).1 := by
  by_cases hk : k ∈ l.items
  · rw [set_mem_eq hk]
    refine WF.mk' h.nodup ?_ h.capPos h.capBound h.sweepCancel h.ttlNonneg h.ttlCancel
    show (List.map ListItem.key (_ :: removeByKey ListItem.key k l.queue)).Perm l.items
    rw [List.map_cons, map_removeByKey]
    have hkq : k ∈ l.queue.map ListItem.key := h.mem_queue_iff.mpr hk
    exact (List.perm_cons_erase hkq).symm.trans h.perm
  · by_cases hfull : (l.items.length : Int) = l.cap
    · cases hb : l.queue.getLast? with
      | none =>
        exact absurd (List.getLast?_eq_none_iff.mp hb) (h.queue_ne_nil_of_full hfull)
      | some b =>
        rw [set_full_eq hk hfull hb]
        have hmem := back_key_mem h hb
        have hknd : k ∉ l.items.erase b.key :=
          fun hx => hk (List.mem_of_mem_erase hx)
        refine WF.mk' (List.nodup_cons.mpr ⟨hknd, List.Nodup.erase _ h.nodup⟩) ?_
          h.capPos ?_ h.sweepCancel h.ttlNonneg h.ttlCancel
        · show (List.map ListItem.key (_ :: l.queue.dropLast)).Perm
            (k :: l.items.erase b.key)
          rw [List.map_cons]
          refine List.Perm.cons k ?_
          rw [← erase_back_key h hb]
          exact h.perm.erase b.key
        · show (((k :: l.items.erase b.key).length : Int)) ≤ l.cap
          have h1 : (l.items.erase b.key).length = l.items.length - 1 :=
            List.length_erase_of_mem hmem
          have h3 : 0 < l.items.length := List.length_pos.mpr (List.ne_nil_of_mem hmem)
          simp only [List.length_cons]
          omega
    · rw [set_spare_eq hk hfull]
      have h2 := h.capBound
      refine WF.mk' (List.nodup_cons.mpr ⟨hk, h.nodup⟩) ?_ h.capPos ?_ h.sweepCancel
        h.ttlNonneg h.ttlCancel
      · show (List.map ListItem.key (_ :: l.queue)).Perm (k :: l.items)
        rw [List.map_cons]
        exact List.Perm.cons k h.perm
      · show (((k :: l.items).length : Int)) ≤ l.cap
        simp only [List.length_cons]
        omega

/-- `Get` on an absent key, unfolded: no side effect. -/
theorem get_absent_eq (hk : k ∉ l.items) : l.Get now k = (l, none, false) := by
  simp [LRUCache.Get, hk]

/-- `Get` on a present key, unfolded: refresh (when ttl is enabled) and
move-to-front. -/
theorem get_found_eq (hk : k ∈ l.items) (hf : findByKey ListItem.key k l.queue = some it) :
    l.Get now k =
      ({ l with queue :=
          (if 0 < l.ttl then { it with expiresAt := now + l.ttl } else it) ::
            removeByKey ListItem.key k l.queue }, some it.value, true) := by
  by_cases ht : 0 < l.ttl <;> simp [LRUCache.Get, hk, hf, ht]

/-- On a well-formed cache a present key always resolves to a queue node. -/
theorem WF.find_of_mem (h : WF l) (hk : k ∈ l.items) :
    ∃ it, findByKey ListItem.key k l.queue = some it :=
  findByKey_isSome_of_mem (h.mem_queue_iff.mpr hk)

theorem WF.get (h : WF l) : WF (l.Get now k).1 := by
  by_cases hk : k ∈ l.items
  · obtain ⟨it, hf⟩ := h.find_of_mem hk
    rw [get_found_eq hk hf]
    have hitk : it.key = k := findByKey_key hf
    refine WF.mk' h.nodup ?_ h.capPos h.capBound h.sweepCancel h.ttlNonneg h.ttlCancel
    show (List.map ListItem.key (_ :: removeByKey ListItem.key k l.queue)).Perm l.items
    rw [List.map_cons, map_removeByKey]
    have hkey : (if 0 < l.ttl then { it with expiresAt := now + l.ttl } else it).key = k := by
      by_cases ht : 0 < l.ttl <;> simp [ht, hitk]
    rw [hkey]
    have hkq : k ∈ l.queue.map ListItem.key := h.mem_queue_iff.mpr hk
    exact (List.perm_cons_erase hkq).symm.trans h.perm
  · rw [get_absent_eq hk]
    exact h

/-- `Clear` when the cancel handle exists: the sweeper is cancelled and the ttl
zeroed before both containers are emptied. -/
theorem clear_eq_of_cancel (hc : l.hasCancel = true) :
    l.Clear = { l with sweeperRunning := false, ttl := 0, items := [], queue := [] } := by
  simp [LRUCache.Clear, hc]

/-- `Clear` when no cancel handle exists: only the containers are emptied. -/
theorem clear_eq_of_no_cancel (hc : l.hasCancel = false) :
    l.Clear = { l with items := [], queue := [] } := by
  simp [LRUCache.Clear, hc]

theorem WF.clear (h : WF l) : WF l.Clear := by
  have hcap := h.capPos
  cases hc : l.hasCancel
  · rw [clear_eq_of_no_cancel hc]
    refine WF.mk' (by simp) (by simp) hcap (by simp; omega) h.sweepCancel h.ttlNonneg h.ttlCancel
  · rw [clear_eq_of_cancel hc]
    refine WF.mk' (by simp) (by simp) hcap (by simp; omega) (by simp) (by simp) (by simp)

/-- The Boolean result of `Set` on an absent key is `false` in both the evicting
and the non-evicting branch. -/
theorem set_snd_of_not_mem (hk : k ∉ l.items) : (l.Set now k v).2 = false := by
  simp [LRUCache.Set, hk]

/-- The Boolean result of `Set` on a present key is `true`. -/
theorem set_snd_of_mem (hk : k ∈ l.items) : (l.Set now k v).2 = true := by
  simp [LRUCache.Set, hk]

theorem deleteBack_ttl : l.deleteBack.ttl = l.ttl := by
  cases hb : l.queue.getLast? <;> simp [LRUCache.deleteBack, hb]

theorem set_ttl : (l.Set now k v).1.ttl = l.ttl := by
  by_cases hk : k ∈ l.items
  · rw [set_mem_eq hk]
  · simp only [LRUCache.Set, hk, if_neg, ite_false]
    by_cases hfull : (l.items.length : Int) = l.cap <;> simp [hfull, deleteBack_ttl]

theorem get_ttl : (l.Get now k).1.ttl = l.ttl := by
  by_cases hk : k ∈ l.items
  · cases hf : findByKey ListItem.key k l.queue with
    | none => simp [LRUCache.Get, hk, hf]
    | some it => rw [get_found_eq hk hf]
  · rw [get_absent_eq hk]

/-! ### The sweeper loop -/

/-- The Go loop's stopping test, as a Boolean predicate on a node: the node
counts as expired when `time.Until(expiresAt) <= 0`. -/
def expiredAt (now : Int) (it : ListItem V) : Bool := decide (it.expiresAt - now ≤ 0)

theorem sweepRev_eq (now : Int) :
    ∀ (rev : List (ListItem V)) (items : List Key),
      sweepRev now rev items =
        (rev.dropWhile (expiredAt now),
          (rev.takeWhile (expiredAt now)).foldl (fun acc it => acc.erase it.key) items)
  | [], items => by simp [sweepRev]
  | it :: rest, items => by
    by_cases hit : 0 < it.expiresAt - now
    · have hexp : expiredAt now it = false := by simp [expiredAt]; omega
      simp [sweepRev, hit, List.dropWhile_cons, List.takeWhile_cons, hexp]
    · have hexp : expiredAt now it = true := by simp [expiredAt]; omega
      simp [sweepRev, hit, List.dropWhile_cons, List.takeWhile_cons, hexp,
        sweepRev_eq now rest (items.erase it.key)]

/-- Erasing, in order, each key of `ds` from an index that holds exactly the keys
`ds ++ rest` (up to order) leaves exactly the keys of `rest`. -/
theorem foldl_erase_perm :
    ∀ (ds items rest : List Key), items.Nodup → items.Perm (ds ++ rest) →
      (ds.foldl (fun acc d => acc.erase d) items).Perm rest
  | [], items, rest, _, hp => by simpa using hp
  | d :: ds, items, rest, hnd, hp => by
    rw [List.cons_append] at hp
    have hp' : (items.erase d).Perm (ds ++ rest) := by
      have h1 := hp.erase d
      rwa [List.erase_cons_head] at h1
    simpa using foldl_erase_perm ds (items.erase d) rest (List.Nodup.erase d hnd) hp'

theorem clearExpired_queue (l : LRUCache V) (now : Int) :
    (clearExpired l now).queue = (l.queue.reverse.dropWhile (expiredAt now)).reverse := by
  by_cases h0 : l.queue.length = 0
  · have hq : l.queue = [] := List.length_eq_zero.mp h0
    simp [clearExpired, h0, hq]
  · simp [clearExpired, h0, sweepRev_eq]

theorem clearExpired_items (l : LRUCache V) (now : Int) :
    (clearExpired l now).items =
      (l.queue.reverse.takeWhile (expiredAt now)).foldl
        (fun acc it => acc.erase it.key) l.items := by
  by_cases h0 : l.queue.length = 0
  · have hq : l.queue = [] := List.length_eq_zero.mp h0
    simp [clearExpired, h0, hq]
  · simp [clearExpired, h0, sweepRev_eq]

theorem clearExpired_cap (l : LRUCache V) (now : Int) :
    (clearExpired l now).cap = l.cap := by
  by_cases h0 : l.queue.length = 0 <;> simp [clearExpired, h0]

theorem clearExpired_ttl (l : LRUCache V) (now : Int) :
    (clearExpired l now).ttl = l.ttl := by
  by_cases h0 : l.queue.length = 0 <;> simp [clearExpired, h0]

theorem clearExpired_hasCancel (l : LRUCache V) (now : Int) :
    (clearExpired l now).hasCancel = l.hasCancel := by
  by_cases h0 : l.queue.length = 0 <;> simp [clearExpired, h0]

theorem clearExpired_sweeperRunning (l : LRUCache V) (now : Int) :
    (clearExpired l now).sweeperRunning = l.sweeperRunning := by
  by_cases h0 : l.queue.length = 0 <;> simp [clearExpired, h0]

/-- The keys removed by one sweep are the keys of the expired back run, so the
index after the sweep holds exactly the keys of the kept front part. -/
theorem clearExpired_items_perm (h : WF l) (now : Int) :
    (clearExpired l now).items.Perm
      ((l.queue.reverse.dropWhile (expiredAt now)).map ListItem.key) := by
  rw [clearExpired_items]
  have hsplit : l.queue.reverse.takeWhile (expiredAt now) ++
      l.queue.reverse.dropWhile (expiredAt now) = l.queue.reverse :=
    List.takeWhile_append_dropWhile (expiredAt now) l.queue.reverse
  have hperm : l.items.Perm
      ((l.queue.reverse.takeWhile (expiredAt now)).map ListItem.key ++
        (l.queue.reverse.dropWhile (expiredAt now)).map ListItem.key) := by
    rw [← List.map_append, hsplit, List.map_reverse]
    exact h.perm.symm.trans (List.reverse_perm _).symm
  have := foldl_erase_perm ((l.queue.reverse.takeWhile (expiredAt now)).map ListItem.key)
    l.items ((l.queue.reverse.dropWhile (expiredAt now)).map ListItem.key)
    h.nodup hperm
  rw [List.foldl_map] at this
  exact this

theorem WF.clearExpired (h : WF l) (now : Int) : WF (Lru.clearExpired l now) := by
  have hqperm := clearExpired_items_perm h now
  have hkept : ((l.queue.reverse.dropWhile (expiredAt now)).map ListItem.key).Nodup := by
    have hnd : (l.queue.reverse.map ListItem.key).Nodup := by
      rw [List.map_reverse]
      exact (List.reverse_perm _).nodup_iff.mpr h.keysNodup
    exact List.Nodup.sublist ((List.dropWhile_sublist (expiredAt now)).map ListItem.key) hnd
  refine WF.mk' (hqperm.symm.nodup hkept) ?_ ?_ ?_ ?_ ?_ ?_
  · rw [clearExpired_queue]
    refine List.Perm.trans ?_ hqperm.symm
    rw [List.map_reverse]
    exact List.reverse_perm _
  · rw [clearExpired_cap]; exact h.capPos
  · rw [clearExpired_cap, clearExpired_items]
    have hlen : (Lru.clearExpired l now).items.length =
        ((l.queue.reverse.dropWhile (expiredAt now)).map ListItem.key).length :=
      hqperm.length_eq
    rw [clearExpired_items] at hlen
    rw [hlen]
    have h1 : ((l.queue.reverse.dropWhile (expiredAt now)).map ListItem.key).length ≤
        l.queue.length := by
      have hs : (l.queue.reverse.dropWhile (expiredAt now)).Sublist l.queue.reverse :=
        List.dropWhile_sublist (expiredAt now)
      have := hs.length_le
      simp only [List.length_map]
      simpa using this
    have h2 := h.capBound
    have h3 := h.len_queue
    omega
  · rw [clearExpired_sweeperRunning, clearExpired_hasCancel]; exact h.sweepCancel
  · rw [clearExpired_ttl]; exact h.ttlNonneg
  · rw [clearExpired_ttl, clearExpired_hasCancel]; exact h.ttlCancel

theorem WF.tick (h : WF l) (now : Int) : WF (Lru.tick l now) := by
  unfold Lru.tick
  by_cases hr : l.sweeperRunning = true
  · simpa [hr] using h.clearExpired now
  · simp only [Bool.not_eq_true] at hr
    simpa [hr] using h

end Lru

/-! ### Claim theorems -/

/-- C1: on a well-formed cache, a `Set` with an absent key while the index holds
exactly `cap` entries evicts exactly the back-most node — removed from both the
index and the ordering, every other key kept, the new key inserted — and a
subsequent `Get` on the evicted key misses; `Set` on a present key never evicts
(the index is unchanged), and `Set` on an absent key with spare capacity only
inserts. -/
theorem c1_eviction_policy {V : Type} (l : Lru.LRUCache V) (now : Int) (k : Key) (v : V)
    (hwf : Lru.WF l) :
    ((k ∉ l.items ∧ (l.items.length : Int) = l.cap) →
      ∃ b, l.queue.getLast? = some b ∧
        (l.Set now k v).1.queue =
          { key := k, value := v,
            expiresAt := if 0 < l.ttl then now + l.ttl else 0 } :: l.queue.dropLast ∧
        (l.Set now k v).1.items.length = l.items.length ∧
        b.key ∉ (l.Set now k v).1.items ∧
        b.key ∉ (l.Set now k v).1.queue.map Lru.ListItem.key ∧
        (∀ k', k' ∈ l.items → k' ≠ b.key → k' ∈ (l.Set now k v).1.items) ∧
        k ∈ (l.Set now k v).1.items ∧
        (∀ now2, ((l.Set now k v).1.Get now2 b.key).2 = (none, false))) ∧
    (k ∈ l.items → (l.Set now k v).1.items = l.items) ∧
    ((k ∉ l.items ∧ (l.items.length : Int) ≠ l.cap) →
      (l.Set now k v).1.items = k :: l.items ∧
      (l.Set now k v).1.queue.length = l.queue.length + 1) := by
  refine ⟨?_, ?_, ?_⟩
  · rintro ⟨hk, hfull⟩
    cases hb : l.queue.getLast? with
    | none =>
      exact absurd (List.getLast?_eq_none_iff.mp hb) (hwf.queue_ne_nil_of_full hfull)
    | some b =>
      have hmem := Lru.back_key_mem hwf hb
      have hbk : b.key ≠ k := fun he => hk (he ▸ hmem)
      have hnotin : b.key ∉ l.items.erase b.key := by
        intro hx
        exact ((hwf.nodup.mem_erase_iff).mp hx).1 rfl
      have hitems : (l.Set now k v).1.items = k :: l.items.erase b.key := by
        rw [Lru.set_full_eq hk hfull hb]
      have hqueue : (l.Set now k v).1.queue =
          { key := k, value := v,
            expiresAt := if 0 < l.ttl then now + l.ttl else 0 } :: l.queue.dropLast := by
        rw [Lru.set_full_eq hk hfull hb]
      have hbnot : b.key ∉ (l.Set now k v).1.items := by
        rw [hitems]
        simp only [List.mem_cons, not_or]
        exact ⟨hbk, hnotin⟩
      refine ⟨b, rfl, hqueue, ?_, hbnot, ?_, ?_, ?_, ?_⟩
      · rw [hitems]
        have h1 : (l.items.erase b.key).length = l.items.length - 1 :=
          List.length_erase_of_mem hmem
        have h3 : 0 < l.items.length := List.length_pos.mpr (List.ne_nil_of_mem hmem)
        simp only [List.length_cons]
        omega
      · rw [hqueue]
        simp only [List.map_cons, List.mem_cons, not_or]
        exact ⟨hbk, Lru.back_key_not_mem_dropLast hwf hb⟩
      · intro k' hk' hne
        rw [hitems]
        exact List.mem_cons_of_mem _ ((List.mem_erase_of_ne hne).mpr hk')
      · rw [hitems]
        exact List.mem_cons_self k _
      · intro now2
        rw [Lru.get_absent_eq hbnot]
  · intro hk
    rw [Lru.set_mem_eq hk]
  · rintro ⟨hk, hfull⟩
    rw [Lru.set_spare_eq hk hfull]
    exact ⟨rfl, by simp⟩

/-- Well-formedness is a decidable property of a concrete cache. -/
instance (l : Lru.LRUCache V) : Decidable (Lru.WF l) := by
  unfold Lru.WF
  infer_instance

/-- A concrete well-formed full cache (capacity 2, keys "a" and "b", no ttl) used
by witnesses. -/
def lruW : Lru.LRUCache Nat :=
  { cap := 2, ttl := 0, hasCancel := false, sweeperRunning := false,
    sweeperPeriod := 0, items := ["b", "a"],
    queue := [{ key := "b", value := 2, expiresAt := 0 },
              { key := "a", value := 1, expiresAt := 0 }] }

/-- C1 witness: on the concrete full cache, inserting the fresh key "c" makes the
evicted key "a" miss on `Get`. -/
theorem c1_eviction_policy_witness :
    ((lruW.Set 0 "c" 3).1.Get 0 "a").2 = (none, false) := by
  obtain ⟨b, hb, hrest⟩ :=
    (c1_eviction_policy lruW 0 "c" 3 (by decide)).1 ⟨by decide, by decide⟩
  have hlast : lruW.queue.getLast? = some { key := "a", value := 1, expiresAt := 0 } := by
    decide
  rw [hlast] at hb
  have hbe : b = { key := "a", value := 1, expiresAt := 0 } := (Option.some.inj hb).symm
  subst hbe
  exact hrest.2.2.2.2.2.2 0

/-- C2: the accessors of the shared state in src/lru.go do not all take the
mutex: `Set` (line 98), `Get` (line 118) and the sweeper body `clearExpired`
(line 147) lock `l.mu` for their whole critical section, but `Clear`
(lines 135-143) mutates `cancel`, `ttl`, `items` and `queue` with no lock at
all, so the claimed property fails at the operation `Clear`. -/
theorem c2_clear_takes_no_lock :
    acquiresMu CacheFun.fClear = false ∧
    acquiresMu CacheFun.fSet = true ∧
    acquiresMu CacheFun.fGet = true ∧
    acquiresMu CacheFun.fSweepTick = true :=
  ⟨rfl, rfl, rfl, rfl⟩

/-- C5: a `Get` on a key that is present but whose expiration has already passed
(`expiresAt ≤ now`) still returns `(value, true)`, keeps the key in the index,
and (ttl being enabled) refreshes the entry to `now + ttl` at the front of the
ordering — expiration is never checked by `Get`. -/
theorem c5_get_revives_expired {V : Type} (l : Lru.LRUCache V) (now : Int) (k : Key)
    (it : Lru.ListItem V) (hk : k ∈ l.items)
    (hf : findByKey Lru.ListItem.key k l.queue = some it)
    (_hexp : it.expiresAt ≤ now) (httl : 0 < l.ttl) :
    (l.Get now k).2 = (some it.value, true) ∧
    (l.Get now k).1.items = l.items ∧
    (l.Get now k).1.queue.head? = some { it with expiresAt := now + l.ttl } := by
  rw [Lru.get_found_eq hk hf]
  refine ⟨rfl, rfl, ?_⟩
  simp [httl]

/-- A concrete well-formed cache with ttl enabled, holding one entry that expired
at time 3, used by witnesses. -/
def lruT : Lru.LRUCache Nat :=
  { cap := 2, ttl := 10, hasCancel := true, sweeperRunning := true,
    sweeperPeriod := 5, items := ["a"],
    queue := [{ key := "a", value := 7, expiresAt := 3 }] }

/-- C5 witness: at time 100 the entry of `lruT` (expired at 3) is still returned
with `found = true`. -/
theorem c5_get_revives_expired_witness :
    (lruT.Get 100 "a").2 = (some 7, true) :=
  (c5_get_revives_expired lruT 100 "a" { key := "a", value := 7, expiresAt := 3 }
    (by decide) (by decide) (by decide) (by decide)).1

/-- C7: `Set` returns true exactly when the key is already present; then the
entry is updated in place (index unchanged, ordering length unchanged, the
stored value becomes the new one); on an absent key `Set` returns false and the
key is inserted. -/
theorem c7_set_update_semantics {V : Type} (l : Lru.LRUCache V) (now : Int) (k : Key)
    (v : V) (hwf : Lru.WF l) :
    ((l.Set now k v).2 = true ↔ k ∈ l.items) ∧
    (k ∈ l.items →
      (l.Set now k v).1.items = l.items ∧
      (l.Set now k v).1.queue.length = l.queue.length ∧
      (findByKey Lru.ListItem.key k (l.Set now k v).1.queue).map Lru.ListItem.value
        = some v) ∧
    (k ∉ l.items → (l.Set now k v).2 = false ∧ k ∈ (l.Set now k v).1.items) := by
  refine ⟨⟨fun hr => ?_, fun hk => Lru.set_snd_of_mem hk⟩, fun hk => ?_, fun hk => ?_⟩
  · by_contra hk
    rw [Lru.set_snd_of_not_mem hk] at hr
    exact Bool.false_ne_true hr
  · rw [Lru.set_mem_eq hk]
    refine ⟨rfl, ?_, ?_⟩
    · have hkq : k ∈ l.queue.map Lru.ListItem.key := hwf.mem_queue_iff.mpr hk
      have := length_removeByKey_of_mem hkq
      simp only [List.length_cons]
      omega
    · simp [findByKey]
  · constructor
    · exact Lru.set_snd_of_not_mem hk
    · by_cases hfull : (l.items.length : Int) = l.cap
      · cases hb : l.queue.getLast? with
        | none =>
          exact absurd (List.getLast?_eq_none_iff.mp hb) (hwf.queue_ne_nil_of_full hfull)
        | some b =>
          rw [Lru.set_full_eq hk hfull hb]
          exact List.mem_cons_self k _
      · rw [Lru.set_spare_eq hk hfull]
        exact List.mem_cons_self k _

/-- C7 witness: on the concrete full cache, `Set` of the present key "b" reports
an update. -/
theorem c7_set_update_semantics_witness : (lruW.Set 0 "b" 9).2 = true :=
  (c7_set_update_semantics lruW 0 "b" 9 (by decide)).1.mpr (by decide)

/-- C9: `Clear` empties both the index and the ordering, stops the sweeper (every
later tick is a no-op, at every time), zeroes the ttl, and later `Set`s stamp the
zero expiration. -/
theorem c9_clear_semantics {V : Type} (l : Lru.LRUCache V) (hwf : Lru.WF l) :
    l.Clear.items = [] ∧
    l.Clear.queue = [] ∧
    l.Clear.sweeperRunning = false ∧
    l.Clear.ttl = 0 ∧
    (∀ now, Lru.tick l.Clear now = l.Clear) ∧
    (∀ now k v, (l.Clear.Set now k v).1.queue.head? =
      some { key := k, value := v, expiresAt := 0 }) := by
  have hbase : l.Clear.items = [] ∧ l.Clear.queue = [] ∧
      l.Clear.sweeperRunning = false ∧ l.Clear.ttl = 0 ∧ l.Clear.cap = l.cap := by
    cases hc : l.hasCancel
    · rw [Lru.clear_eq_of_no_cancel hc]
      refine ⟨rfl, rfl, ?_, ?_, rfl⟩
      · cases hsr : l.sweeperRunning
        · rfl
        · exact absurd (hwf.sweepCancel hsr) (by simp [hc])
      · by_cases ht : 0 < l.ttl
        · exact absurd (hwf.ttlCancel ht) (by simp [hc])
        · have := hwf.ttlNonneg
          show l.ttl = 0
          omega
    · rw [Lru.clear_eq_of_cancel hc]
      exact ⟨rfl, rfl, rfl, rfl, rfl⟩
  obtain ⟨h1, h2, h3, h4, h5⟩ := hbase
  refine ⟨h1, h2, h3, h4, fun now => ?_, fun now k v => ?_⟩
  · simp [Lru.tick, h3]
  · have hknot : k ∉ l.Clear.items := by rw [h1]; simp
    have hcap := hwf.capPos
    have hfull : ((l.Clear.items.length : Int) ≠ l.Clear.cap) := by
      rw [h1, h5]
      simp only [List.length_nil, Nat.cast_zero]
      omega
    rw [Lru.set_spare_eq hknot hfull]
    simp [h4]

/-- C9 witness: after clearing the concrete ttl cache, the sweeper tick at time
1000 changes nothing. -/
theorem c9_clear_semantics_witness : Lru.tick lruT.Clear 1000 = lruT.Clear :=
  (c9_clear_semantics lruT (by decide)).2.2.2.2.1 1000

/-- Erasing, in order, the keys of the nodes `ds` from a duplicate-free index
keeps exactly the keys not named by `ds`. -/
theorem mem_foldl_erase_iff {V : Type} {items : List Key} (hnd : items.Nodup)
    (ds : List (Lru.ListItem V)) (k : Key) :
    k ∈ ds.foldl (fun acc it => acc.erase it.key) items ↔
      (k ∈ items ∧ ∀ it ∈ ds, it.key ≠ k) := by
  induction ds generalizing items with
  | nil => simp
  | cons d ds ih =>
    rw [List.foldl_cons, ih (List.Nodup.erase _ hnd), List.Nodup.mem_erase_iff hnd]
    constructor
    · rintro ⟨⟨hne, hmem⟩, hall⟩
      refine ⟨hmem, ?_⟩
      intro it hit
      rcases List.mem_cons.mp hit with h | h
      · rw [h]
        exact hne.symm
      · exact hall it h
    · rintro ⟨hmem, hall⟩
      exact ⟨⟨(hall d (List.mem_cons_self d ds)).symm, hmem⟩,
        fun it hit => hall it (List.mem_cons_of_mem d hit)⟩

/-- C3: one sweeper pass removes exactly the maximal run of consecutively expired
entries at the back of the ordering: the old queue is the kept front part
followed by the dropped back run, every dropped entry was expired, the back of
the kept part (when an entry remains) has its expiration strictly in the future,
and the index afterwards holds a key iff it held it before and no dropped node
carries it. -/
theorem c3_sweeper_maximal_run {V : Type} (l : Lru.LRUCache V) (now : Int)
    (hwf : Lru.WF l) :
    ∃ dropped : List (Lru.ListItem V),
      l.queue = (Lru.clearExpired l now).queue ++ dropped ∧
      (∀ it ∈ dropped, it.expiresAt - now ≤ 0) ∧
      (∀ b, (Lru.clearExpired l now).queue.getLast? = some b →
        0 < b.expiresAt - now) ∧
      (∀ k, k ∈ (Lru.clearExpired l now).items ↔
        (k ∈ l.items ∧ ∀ it ∈ dropped, it.key ≠ k)) := by
  refine ⟨(l.queue.reverse.takeWhile (Lru.expiredAt now)).reverse, ?_, ?_, ?_, ?_⟩
  · rw [Lru.clearExpired_queue]
    rw [← List.reverse_append, List.takeWhile_append_dropWhile, List.reverse_reverse]
  · intro it hit
    rw [List.mem_reverse] at hit
    have := List.mem_takeWhile_imp hit
    simpa [Lru.expiredAt] using this
  · intro b hb
    rw [Lru.clearExpired_queue, List.getLast?_reverse] at hb
    have h := List.head?_dropWhile_not (Lru.expiredAt now) l.queue.reverse
    rw [hb] at h
    simp only [Lru.expiredAt, decide_eq_false_iff_not, not_le] at h
    exact h
  · intro k
    rw [Lru.clearExpired_items, mem_foldl_erase_iff hwf.nodup]
    simp [List.mem_reverse]

/-- C3 witness: at time 100 the sweep of the concrete ttl cache (sole entry
expired at 3) removes that entry from the index. -/
theorem c3_sweeper_maximal_run_witness :
    "a" ∉ (Lru.clearExpired lruT 100).items := by
  obtain ⟨dropped, hsplit, hexp, hback, hiff⟩ :=
    c3_sweeper_maximal_run lruT 100 (by decide)
  have hq : (Lru.clearExpired lruT 100).queue = [] := by decide
  rw [hq, List.nil_append] at hsplit
  intro hmem
  have h2 := (hiff "a").mp hmem
  have hd : ({ key := "a", value := 7, expiresAt := 3 } : Lru.ListItem Nat) ∈ dropped := by
    rw [← hsplit]
    decide
  exact (h2.2 _ hd) rfl

/-- C8: construction succeeds iff the capacity is positive and (when the TTL
option is supplied) ttl is positive and ticks at least 2; the error kind is
`InvalidCapacity` exactly for a non-positive capacity and `InvalidTTLConfig`
exactly for a bad ttl/ticks pair behind a valid capacity; on failure no cache
value exists at all (the result is the bare error), and on success with the TTL
option the sweeper is running with ticker period `ttl / ticks`, while without
the option no sweeper exists. -/
theorem c8_construction_validation {V : Type} (cap ttl ticks : Int) :
    ((Lru.New cap [Lru.WithTTL ttl ticks] : Except CacheErr (Lru.LRUCache V)).isOk
        = true ↔ (0 < cap ∧ 0 < ttl ∧ 2 ≤ ticks)) ∧
    (∀ e, (Lru.New cap [Lru.WithTTL ttl ticks] : Except CacheErr (Lru.LRUCache V))
        = Except.error e →
        (e.kind = ErrKind.invalidCapacity ↔ cap ≤ 0) ∧
        (e.kind = ErrKind.invalidTTLConfig ↔ (0 < cap ∧ (ttl ≤ 0 ∨ ticks ≤ 1)))) ∧
    (∀ lc, (Lru.New cap [Lru.WithTTL ttl ticks] : Except CacheErr (Lru.LRUCache V))
        = Except.ok lc →
        lc.sweeperRunning = true ∧ lc.hasCancel = true ∧
        lc.sweeperPeriod = ttl / ticks ∧ lc.ttl = ttl ∧ lc.cap = cap ∧
        lc.items = [] ∧ lc.queue = []) ∧
    (∀ lc, Lru.New cap ([] : List (Lru.CacheOption V)) = Except.ok lc →
        lc.sweeperRunning = false ∧ lc.hasCancel = false ∧ lc.ttl = 0) ∧
    ((Lru.New cap ([] : List (Lru.CacheOption V))).isOk = true ↔ 0 < cap) := by
  have hmain : (Lru.New cap [Lru.WithTTL ttl ticks] : Except CacheErr (Lru.LRUCache V)) =
      (if cap ≤ 0 then Except.error CacheErr.capMustBePositive
       else if ttl ≤ 0 then Except.error CacheErr.ttlMustBePositive
       else if ticks ≤ 1 then Except.error CacheErr.ticksMustBeGreaterOne
       else Except.ok { cap := cap, ttl := ttl, hasCancel := true,
                        sweeperRunning := true, sweeperPeriod := ttl / ticks,
                        items := [], queue := [] }) := by
    by_cases hc : cap ≤ 0 <;> by_cases ht : ttl ≤ 0 <;> by_cases hk : ticks ≤ 1 <;>
      simp [Lru.New, Lru.WithTTL, hc, ht, hk, List.foldlM]
  have hplain : Lru.New cap ([] : List (Lru.CacheOption V)) =
      (if cap ≤ 0 then Except.error CacheErr.capMustBePositive
       else Except.ok { cap := cap, ttl := 0, hasCancel := false,
                        sweeperRunning := false, sweeperPeriod := 0,
                        items := [], queue := [] }) := by
    by_cases hc : cap ≤ 0 <;> simp [Lru.New, hc, List.foldlM, Except.pure]
    rfl
  rw [hmain, hplain]
  by_cases hc : cap ≤ 0 <;> by_cases ht : ttl ≤ 0 <;> by_cases hk : ticks ≤ 1 <;>
    simp [hc, ht, hk, CacheErr.kind, Except.isOk, Except.toBool] <;> omega

/-! ### Touch sequences and the expiry-order invariant (C4) -/

/-- One touch of the cache: a `Set` or a `Get`, tagged with the `time.Now()`
reading that the operation makes. -/
inductive TouchOp (V : Type) where
  | tset (key : Key) (value : V) (now : Int)
  | tget (key : Key) (now : Int)

/-- The timestamp at which a touch happens. -/
def TouchOp.now {V : Type} : TouchOp V → Int
  | .tset _ _ t => t
  | .tget _ t => t

/-- Applying one touch to the cache state. -/
def applyTouch {V : Type} (l : Lru.LRUCache V) : TouchOp V → Lru.LRUCache V
  | .tset k v t => (l.Set t k v).1
  | .tget k t => (l.Get t k).1

/-- Running a sequence of touches left to right. -/
def runTouches {V : Type} (l : Lru.LRUCache V) (ops : List (TouchOp V)) :
    Lru.LRUCache V :=
  ops.foldl applyTouch l

/-- The queue is ordered newest-expiry-first: from the front towards the back the
`expiresAt` stamps never increase, i.e. back-to-front they are non-decreasing. -/
def SortedExpiry {V : Type} (q : List (Lru.ListItem V)) : Prop :=
  List.Pairwise (fun a b => b.expiresAt ≤ a.expiresAt) q

instance {V : Type} (q : List (Lru.ListItem V)) : Decidable (SortedExpiry q) := by
  unfold SortedExpiry
  infer_instance

/-- The invariant carried along a touch sequence: the queue is expiry-sorted and
every stamp is at most `t + ttl` for the current time `t`. -/
def ExpiryInv {V : Type} (l : Lru.LRUCache V) (t : Int) : Prop :=
  SortedExpiry l.queue ∧ ∀ it ∈ l.queue, it.expiresAt ≤ t + l.ttl

instance {V : Type} (l : Lru.LRUCache V) (t : Int) : Decidable (ExpiryInv l t) := by
  unfold ExpiryInv SortedExpiry
  infer_instance

/-- Pushing a freshly stamped item over a sub-multiset of an expiry-sorted,
bounded queue keeps it expiry-sorted and bounded. -/
theorem expiryInv_cons {V : Type} {q q' : List (Lru.ListItem V)} {t t' ttl : Int}
    {newIt : Lru.ListItem V}
    (hs : q'.Sublist q) (hsorted : SortedExpiry q)
    (hbound : ∀ it ∈ q, it.expiresAt ≤ t + ttl)
    (hle : t ≤ t') (hstamp : newIt.expiresAt = t' + ttl) :
    SortedExpiry (newIt :: q') ∧ ∀ it ∈ newIt :: q', it.expiresAt ≤ t' + ttl := by
  constructor
  · refine List.Pairwise.cons ?_ (hsorted.sublist hs)
    intro x hx
    have := hbound x (hs.subset hx)
    omega
  · intro it hit
    rcases List.mem_cons.mp hit with h | h
    · rw [h, hstamp]
    · have := hbound it (hs.subset h)
      omega

theorem expiryInv_set {V : Type} {l : Lru.LRUCache V} {t t' : Int} (k : Key) (v : V)
    (httl : 0 < l.ttl) (hinv : ExpiryInv l t) (hle : t ≤ t') :
    ExpiryInv (l.Set t' k v).1 t' := by
  obtain ⟨hsorted, hbound⟩ := hinv
  have hstamp : (if 0 < l.ttl then t' + l.ttl else 0) = t' + l.ttl := if_pos httl
  by_cases hk : k ∈ l.items
  · rw [Lru.set_mem_eq hk]
    exact expiryInv_cons removeByKey_sublist hsorted hbound hle hstamp
  · by_cases hfull : (l.items.length : Int) = l.cap
    · cases hb : l.queue.getLast? with
      | none =>
        have heq : (l.Set t' k v).1 =
            { l with
                items := k :: l.items,
                queue :=
                  { key := k, value := v,
                    expiresAt := if 0 < l.ttl then t' + l.ttl else 0 } ::
                    l.queue } := by
          simp [Lru.LRUCache.Set, hk, hfull, Lru.LRUCache.deleteBack, hb]
        rw [heq]
        exact expiryInv_cons (List.Sublist.refl l.queue) hsorted hbound hle hstamp
      | some b =>
        rw [Lru.set_full_eq hk hfull hb]
        exact expiryInv_cons (List.dropLast_sublist l.queue) hsorted hbound hle hstamp
    · rw [Lru.set_spare_eq hk hfull]
      exact expiryInv_cons (List.Sublist.refl l.queue) hsorted hbound hle hstamp

theorem expiryInv_get {V : Type} {l : Lru.LRUCache V} {t t' : Int} (k : Key)
    (httl : 0 < l.ttl) (hinv : ExpiryInv l t) (hle : t ≤ t') :
    ExpiryInv (l.Get t' k).1 t' := by
  obtain ⟨hsorted, hbound⟩ := hinv
  by_cases hk : k ∈ l.items
  · cases hf : findByKey Lru.ListItem.key k l.queue with
    | none =>
      have heq : (l.Get t' k).1 = l := by simp [Lru.LRUCache.Get, hk, hf]
      rw [heq]
      refine ⟨hsorted, fun it hit => ?_⟩
      have := hbound it hit
      omega
    | some it =>
      rw [Lru.get_found_eq hk hf]
      refine expiryInv_cons removeByKey_sublist hsorted hbound hle ?_
      simp [httl]
  · rw [Lru.get_absent_eq hk]
    show ExpiryInv l t'
    refine ⟨hsorted, fun it hit => ?_⟩
    have := hbound it hit
    omega

/-- C4: with ttl enabled, starting from any state satisfying the expiry-order
invariant at time `t0` (in particular the fresh empty cache), after any sequence
of `Set`/`Get` touches whose timestamps are non-decreasing from `t0`, the queue
remains expiry-sorted: back-to-front the `expiresAt` stamps never decrease — the
invariant the sweeper's early stop relies on. -/
theorem c4_expiry_monotone {V : Type} (l : Lru.LRUCache V) (t0 : Int)
    (ops : List (TouchOp V)) (httl : 0 < l.ttl)
    (hinv : ExpiryInv l t0)
    (hmono : List.Chain (fun a b => a ≤ b) t0 (ops.map TouchOp.now)) :
    SortedExpiry (runTouches l ops).queue := by
  induction ops generalizing l t0 with
  | nil => exact hinv.1
  | cons op rest ih =>
    rw [List.map_cons, List.chain_cons] at hmono
    have httl' : 0 < (applyTouch l op).ttl := by
      cases op <;> simpa [applyTouch, Lru.set_ttl, Lru.get_ttl] using httl
    have hinv' : ExpiryInv (applyTouch l op) op.now := by
      cases op with
      | tset k v t => exact expiryInv_set k v httl hinv hmono.1
      | tget k t => exact expiryInv_get k httl hinv hmono.1
    simpa [runTouches, List.foldl_cons] using ih (applyTouch l op) op.now httl' hinv' hmono.2

/-- C4 witness: two monotone touches on the concrete ttl cache leave the queue
expiry-sorted. -/
theorem c4_expiry_monotone_witness :
    SortedExpiry (runTouches lruT
      [TouchOp.tset "b" 1 2, TouchOp.tget "a" 5]).queue :=
  c4_expiry_monotone lruT 0 [TouchOp.tset "b" 1 2, TouchOp.tget "a" 5]
    (by decide) (by decide)
    (List.Chain.cons (by simp [TouchOp.now]) (List.Chain.cons (by simp [TouchOp.now])
      List.Chain.nil))

/-! ### Set sequences within capacity (C6) -/

/-- One `Set` of a sequence: key, value, and the time it happens at. -/
structure SetOp (V : Type) where
  key : Key
  value : V
  now : Int
deriving DecidableEq

/-- Applying one `Set` to the cache state. -/
def applySet {V : Type} (l : Lru.LRUCache V) (op : SetOp V) : Lru.LRUCache V :=
  (l.Set op.now op.key op.value).1

/-- Running a sequence of `Set`s left to right. -/
def runSets {V : Type} (l : Lru.LRUCache V) (ops : List (SetOp V)) : Lru.LRUCache V :=
  ops.foldl applySet l

/-- The value of the most recent `Set` for a key in a sequence, if any. -/
def lastVal {V : Type} (ops : List (SetOp V)) (k : Key) : Option V :=
  ((ops.filter (fun op => op.key == k)).getLast?).map SetOp.value

theorem lastVal_append_self {V : Type} (p : List (SetOp V)) (op : SetOp V) :
    lastVal (p ++ [op]) op.key = some op.value := by
  have hfil : (p ++ [op]).filter (fun o => o.key == op.key) =
      p.filter (fun o => o.key == op.key) ++ [op] := by
    rw [List.filter_append]
    simp [List.filter]
  simp [lastVal, hfil]

theorem lastVal_append_ne {V : Type} (p : List (SetOp V)) (op : SetOp V) {k : Key}
    (hne : op.key ≠ k) : lastVal (p ++ [op]) k = lastVal p k := by
  have hb : (op.key == k) = false := by simpa using hne
  simp [lastVal, List.filter_append, List.filter, hb]

/-- The induction invariant for C6: the cache processed the `Set`s of `p`
starting empty — so its index holds exactly the keys of `p` (one entry per
distinct key) and the queue stores, for each key, the value of its most recent
`Set`. -/
def C6Inv {V : Type} (cap : Int) (p : List (SetOp V)) (l : Lru.LRUCache V) : Prop :=
  Lru.WF l ∧ l.cap = cap ∧
  (∀ k, k ∈ l.items ↔ k ∈ p.map SetOp.key) ∧
  l.items.length = (p.map SetOp.key).toFinset.card ∧
  (∀ k, (findByKey Lru.ListItem.key k l.queue).map Lru.ListItem.value = lastVal p k)

theorem c6_step {V : Type} {cap : Int} {p : List (SetOp V)} {l : Lru.LRUCache V}
    (hinv : C6Inv cap p l) (op : SetOp V)
    (hroom : ((((p ++ [op]).map SetOp.key).toFinset.card : Int)) ≤ cap) :
    C6Inv cap (p ++ [op]) (applySet l op) := by
  obtain ⟨hwf, hcap, hiff, hlen, hval⟩ := hinv
  have hwf' : Lru.WF (applySet l op) := hwf.set
  by_cases hk : op.key ∈ l.items
  · have hkp : op.key ∈ p.map SetOp.key := (hiff op.key).mp hk
    have hit : (applySet l op).items = l.items := by
      simp [applySet, Lru.set_mem_eq hk]
    have hqu : (applySet l op).queue =
        { key := op.key, value := op.value,
          expiresAt := if 0 < l.ttl then op.now + l.ttl else 0 } ::
          removeByKey Lru.ListItem.key op.key l.queue := by
      simp [applySet, Lru.set_mem_eq hk]
    have hfin : ((p ++ [op]).map SetOp.key).toFinset = (p.map SetOp.key).toFinset := by
      rw [List.map_append, List.toFinset_append]
      simp [Finset.union_eq_left, Finset.singleton_subset_iff, List.mem_toFinset, hkp]
    have hcap' : (applySet l op).cap = cap := by
      rw [applySet, Lru.set_mem_eq hk]
      exact hcap
    refine ⟨hwf', hcap', ?_, ?_, ?_⟩
    · intro k'
      rw [hit, hiff k', List.map_append]
      by_cases hk' : k' = op.key <;> simp [hk', hkp]
    · rw [hit, hfin]
      exact hlen
    · intro k'
      by_cases hk' : k' = op.key
      · subst hk'
        rw [hqu]
        simp only [findByKey, if_pos rfl, Option.map_some']
        exact (lastVal_append_self p op).symm
      · have hne : op.key ≠ k' := fun he => hk' he.symm
        rw [hqu]
        simp only [findByKey, hne, if_neg, ite_false]
        rw [findByKey_removeByKey_ne hk', hval k', lastVal_append_ne p op hne]
  · have hkp : op.key ∉ p.map SetOp.key := fun hx => hk ((hiff op.key).mpr hx)
    have hfin : ((p ++ [op]).map SetOp.key).toFinset =
        insert op.key (p.map SetOp.key).toFinset := by
      rw [List.map_append, List.toFinset_append]
      simp only [List.map_cons, List.map_nil, List.toFinset_cons, List.toFinset_nil,
        insert_emptyc_eq]
      rw [Finset.union_comm, ← Finset.insert_eq]
    have hcard' : ((p ++ [op]).map SetOp.key).toFinset.card =
        (p.map SetOp.key).toFinset.card + 1 := by
      rw [hfin, Finset.card_insert_of_not_mem (by simpa [List.mem_toFinset] using hkp)]
    have hne : ((l.items.length : Int)) ≠ l.cap := by
      rw [hlen, hcap]
      omega
    have hit : (applySet l op).items = op.key :: l.items := by
      simp [applySet, Lru.set_spare_eq hk hne]
    have hqu : (applySet l op).queue =
        { key := op.key, value := op.value,
          expiresAt := if 0 < l.ttl then op.now + l.ttl else 0 } :: l.queue := by
      simp [applySet, Lru.set_spare_eq hk hne]
    have hcap' : (applySet l op).cap = cap := by
      rw [applySet, Lru.set_spare_eq hk hne]
      exact hcap
    refine ⟨hwf', hcap', ?_, ?_, ?_⟩
    · intro k'
      rw [hit, List.map_append]
      by_cases hk' : k' = op.key <;> simp [hk', hiff k']
    · rw [hit, hcard', List.length_cons, hlen]
    · intro k'
      by_cases hk' : k' = op.key
      · subst hk'
        rw [hqu]
        simp only [findByKey, if_pos rfl, Option.map_some']
        exact (lastVal_append_self p op).symm
      · have hne2 : op.key ≠ k' := fun he => hk' he.symm
        rw [hqu]
        simp only [findByKey, hne2, if_neg, ite_false]
        rw [hval k', lastVal_append_ne p op hne2]

theorem c6_aux {V : Type} (cap : Int) :
    ∀ (rest p : List (SetOp V)) (l : Lru.LRUCache V),
      C6Inv cap p l →
      ((((p ++ rest).map SetOp.key).toFinset.card : Int)) ≤ cap →
      C6Inv cap (p ++ rest) (runSets l rest)
  | [], p, l, hinv, _ => by simpa [runSets] using hinv
  | op :: rest, p, l, hinv, hcard => by
    have hsub : ((p ++ [op]).map SetOp.key).toFinset ⊆
        ((p ++ op :: rest).map SetOp.key).toFinset := by
      intro x hx
      rw [List.mem_toFinset] at hx
      rw [List.mem_toFinset]
      simp only [List.map_append, List.mem_append, List.map_cons, List.mem_cons,
        List.map_nil, List.mem_singleton] at hx ⊢
      rcases hx with h | h
      · exact Or.inl h
      · simp at h
        exact Or.inr (Or.inl h)
    have hroom : ((((p ++ [op]).map SetOp.key).toFinset.card : Int)) ≤ cap := by
      have := Finset.card_le_card hsub
      omega
    have hstep := c6_step hinv op hroom
    have hcard' : ((((p ++ [op]) ++ rest).map SetOp.key).toFinset.card : Int) ≤ cap := by
      rw [← List.append_cons]
      exact hcard
    have hrec := c6_aux cap rest (p ++ [op]) (applySet l op) hstep hcard'
    rw [List.append_cons]
    simpa [runSets, List.foldl_cons] using hrec

/-- C6: starting from a freshly constructed cache (no TTL option) and running any
sequence of `Set`s touching at most `cap` distinct keys: every key of the
sequence is in the index afterwards with the index holding exactly one entry per
distinct key (so no eviction ever fired), and `Get` on each such key returns the
value of its most recent `Set` together with `found = true`. -/
theorem c6_no_eviction_within_capacity {V : Type} (cap : Int) (l0 : Lru.LRUCache V)
    (ops : List (SetOp V))
    (hnew : Lru.New cap ([] : List (Lru.CacheOption V)) = Except.ok l0)
    (hcard : (((ops.map SetOp.key).toFinset.card : Int)) ≤ cap) :
    (∀ k, k ∈ ops.map SetOp.key → ∀ t,
      ((runSets l0 ops).Get t k).2 = (lastVal ops k, true)) ∧
    (runSets l0 ops).items.length = (ops.map SetOp.key).toFinset.card ∧
    (∀ k, k ∈ (runSets l0 ops).items ↔ k ∈ ops.map SetOp.key) := by
  have hcap0 : ¬ cap ≤ 0 := by
    intro hc
    simp [Lru.New, hc] at hnew
  have hl0 : l0 =
      { cap := cap, ttl := 0, hasCancel := false, sweeperRunning := false,
        sweeperPeriod := 0, items := [], queue := [] } := by
    have h1 : Lru.New cap ([] : List (Lru.CacheOption V)) =
        Except.ok
          { cap := cap, ttl := 0, hasCancel := false, sweeperRunning := false,
            sweeperPeriod := 0, items := [], queue := [] } := by
      unfold Lru.New
      rw [if_neg hcap0]
      rfl
    rw [h1] at hnew
    exact (Except.ok.inj hnew).symm
  have hbase : C6Inv cap ([] : List (SetOp V)) l0 := by
    subst hl0
    refine ⟨Lru.WF.mk' (by simp) (by simp) (by simp; omega) (by simp; omega) (by simp)
      (by simp) (by simp), rfl, ?_, ?_, ?_⟩
    · intro k
      simp
    · simp
    · intro k
      simp [findByKey, lastVal]
  have hinv := c6_aux cap ops [] l0 hbase (by simpa using hcard)
  rw [List.nil_append] at hinv
  obtain ⟨hwf, hcap', hiff, hlen, hval⟩ := hinv
  refine ⟨?_, hlen, hiff⟩
  intro k hkmem t
  have hkin : k ∈ (runSets l0 ops).items := (hiff k).mpr hkmem
  obtain ⟨it, hf⟩ := hwf.find_of_mem hkin
  rw [Lru.get_found_eq hkin hf]
  have : some it.value = lastVal ops k := by
    have := hval k
    rw [hf] at this
    simpa using this
  rw [← this]

/-- The fresh capacity-2 cache the plain constructor returns, used by the C6
witness. -/
def lruF : Lru.LRUCache Nat :=
  { cap := 2, ttl := 0, hasCancel := false, sweeperRunning := false,
    sweeperPeriod := 0, items := [], queue := [] }

/-- C6 witness: three Sets over two distinct keys on a fresh capacity-2 cache;
`Get` of "x" afterwards returns the value of the most recent Set of "x". -/
theorem c6_no_eviction_within_capacity_witness :
    ((runSets lruF [⟨"x", 1, 0⟩, ⟨"y", 2, 1⟩, ⟨"x", 3, 2⟩]).Get 9 "x").2
      = (some 3, true) := by
  have h := (c6_no_eviction_within_capacity 2 lruF
    [⟨"x", 1, 0⟩, ⟨"y", 2, 1⟩, ⟨"x", 3, 2⟩] rfl (by decide)).1 "x" (by decide) 9
  rw [h]
  decide

/-! ### Refinement of the simple cache by the TTL cache without the TTL option
(C10) -/

/-- Forgetting the ttl stamp of a node maps the entries of src/lru.go onto those
of src/lruCache.go. -/
def eraseTTL {V : Type} (it : Lru.ListItem V) : Simple.ListItem V :=
  { key := it.key, value := it.value }

/-- A call of the common capability surface `{Set, Get, Clear}`, carrying the
time reading the TTL-capable implementation would make. -/
inductive COp (V : Type) where
  | cset (key : Key) (value : V) (now : Int)
  | cget (key : Key) (now : Int)
  | cclear

/-- What one call returns. -/
inductive CRes (V : Type) where
  | rset (updated : Bool)
  | rget (value : Option V) (found : Bool)
  | rclear
deriving DecidableEq

/-- One call on the TTL-capable implementation. -/
def Lru.stepOp {V : Type} (l : Lru.LRUCache V) : COp V → Lru.LRUCache V × CRes V
  | .cset k v t => ((l.Set t k v).1, .rset (l.Set t k v).2)
  | .cget k t => ((l.Get t k).1, .rget (l.Get t k).2.1 (l.Get t k).2.2)
  | .cclear => (l.Clear, .rclear)

/-- One call on the simple implementation. -/
def Simple.stepOp {V : Type} (s : Simple.LRUCache V) : COp V → Simple.LRUCache V × CRes V
  | .cset k v _ => ((s.Set k v).1, .rset (s.Set k v).2)
  | .cget k _ => ((s.Get k).1, .rget (s.Get k).2.1 (s.Get k).2.2)
  | .cclear => (s.Clear, .rclear)

/-- Running a call sequence on the TTL-capable implementation, collecting the
results. -/
def Lru.runOps {V : Type} (l : Lru.LRUCache V) :
    List (COp V) → Lru.LRUCache V × List (CRes V)
  | [] => (l, [])
  | op :: rest =>
    ((Lru.runOps (Lru.stepOp l op).1 rest).1,
      (Lru.stepOp l op).2 :: (Lru.runOps (Lru.stepOp l op).1 rest).2)

/-- Running a call sequence on the simple implementation, collecting the
results. -/
def Simple.runOps {V : Type} (s : Simple.LRUCache V) :
    List (COp V) → Simple.LRUCache V × List (CRes V)
  | [] => (s, [])
  | op :: rest =>
    ((Simple.runOps (Simple.stepOp s op).1 rest).1,
      (Simple.stepOp s op).2 :: (Simple.runOps (Simple.stepOp s op).1 rest).2)

/-- The refinement relation: the TTL-capable cache is well formed with TTL
disabled and no sweeper, and the simple cache holds the very same capacity,
index, and ordering (entrywise up to the ttl stamp). -/
def SimRel {V : Type} (s : Simple.LRUCache V) (l : Lru.LRUCache V) : Prop :=
  Lru.WF l ∧ l.ttl = 0 ∧ l.hasCancel = false ∧
  s.cap = l.cap ∧ s.items = l.items ∧ s.queue = l.queue.map eraseTTL

/-- `Set` on a present key of the simple cache, unfolded. -/
theorem Simple.set_update_eq {V : Type} {s : Simple.LRUCache V} {k : Key}
    {it : Simple.ListItem V} {v : V} (hk : k ∈ s.items)
    (hf : findByKey Simple.ListItem.key k s.queue = some it) :
    s.Set k v =
      ({ s with queue :=
          { it with value := v } :: removeByKey Simple.ListItem.key k s.queue },
        true) := by
  simp [Simple.LRUCache.Set, hk, hf]

/-- `Set` on an absent key of the full simple cache, unfolded. -/
theorem Simple.set_evict_eq {V : Type} {s : Simple.LRUCache V} {k : Key}
    {b : Simple.ListItem V} {v : V} (hk : k ∉ s.items)
    (hfull : (s.items.length : Int) = s.cap) (hb : s.queue.getLast? = some b) :
    s.Set k v =
      ({ s with
          items := k :: s.items.erase b.key,
          queue := { key := k, value := v } :: s.queue.dropLast }, false) := by
  simp [Simple.LRUCache.Set, hk, hfull, hb]

/-- `Set` on an absent key of the simple cache with spare capacity, unfolded. -/
theorem Simple.set_insert_eq {V : Type} {s : Simple.LRUCache V} {k : Key} {v : V}
    (hk : k ∉ s.items) (hfull : (s.items.length : Int) ≠ s.cap) :
    s.Set k v =
      ({ s with
          items := k :: s.items,
          queue := { key := k, value := v } :: s.queue }, false) := by
  simp [Simple.LRUCache.Set, hk, hfull]

/-- `Get` on an absent key of the simple cache, unfolded. -/
theorem Simple.get_miss_eq {V : Type} {s : Simple.LRUCache V} {k : Key}
    (hk : k ∉ s.items) : s.Get k = (s, none, false) := by
  simp [Simple.LRUCache.Get, hk]

/-- `Get` on a present key of the simple cache, unfolded. -/
theorem Simple.get_hit_eq {V : Type} {s : Simple.LRUCache V} {k : Key}
    {it : Simple.ListItem V} (hk : k ∈ s.items)
    (hf : findByKey Simple.ListItem.key k s.queue = some it) :
    s.Get k =
      ({ s with queue := it :: removeByKey Simple.ListItem.key k s.queue },
        some it.value, true) := by
  simp [Simple.LRUCache.Get, hk, hf]

theorem eraseTTL_key {V : Type} (it : Lru.ListItem V) :
    (eraseTTL it).key = it.key := rfl

theorem simRel_step {V : Type} {s : Simple.LRUCache V} {l : Lru.LRUCache V}
    (h : SimRel s l) (op : COp V) :
    (Simple.stepOp s op).2 = (Lru.stepOp l op).2 ∧
    SimRel (Simple.stepOp s op).1 (Lru.stepOp l op).1 := by
  obtain ⟨hwf, httl, hcancel, hcap, hitems, hqueue⟩ := h
  cases op with
  | cclear =>
    refine ⟨rfl, hwf.clear, ?_, ?_, ?_, ?_, ?_⟩ <;>
      simp [Simple.stepOp, Lru.stepOp, Simple.LRUCache.Clear,
        Lru.clear_eq_of_no_cancel hcancel, httl, hcancel, hcap]
  | cset k v t =>
    by_cases hk : k ∈ l.items
    · have hks : k ∈ s.items := by rw [hitems]; exact hk
      obtain ⟨it, hf⟩ := hwf.find_of_mem hk
      have hfs : findByKey Simple.ListItem.key k s.queue = some (eraseTTL it) := by
        rw [hqueue, findByKey_map eraseTTL_key l.queue, hf]
        rfl
      have hitk : it.key = k := findByKey_key hf
      constructor
      · simp [Simple.stepOp, Lru.stepOp, Simple.set_update_eq hks hfs,
          Lru.set_mem_eq hk]
      · refine ⟨hwf.set, ?_, ?_, ?_, ?_, ?_⟩ <;>
          simp [Simple.stepOp, Lru.stepOp, Simple.set_update_eq hks hfs,
            Lru.set_mem_eq hk, httl, hcancel, hcap, hitems, hqueue]
        rw [removeByKey_map eraseTTL_key l.queue]
        refine ⟨?_, rfl⟩
        simp [eraseTTL, hitk]
    · have hks : k ∉ s.items := by rw [hitems]; exact hk
      by_cases hfull : (l.items.length : Int) = l.cap
      · cases hb : l.queue.getLast? with
        | none =>
          exact absurd (List.getLast?_eq_none_iff.mp hb)
            (hwf.queue_ne_nil_of_full hfull)
        | some b =>
          have hfulls : (s.items.length : Int) = s.cap := by
            rw [hitems, hcap]
            exact hfull
          have hbs : s.queue.getLast? = some (eraseTTL b) := by
            rw [hqueue, List.getLast?_map, hb]
            rfl
          constructor
          · simp [Simple.stepOp, Lru.stepOp, Simple.set_evict_eq hks hfulls hbs,
              Lru.set_full_eq hk hfull hb]
          · refine ⟨hwf.set, ?_, ?_, ?_, ?_, ?_⟩ <;>
              simp [Simple.stepOp, Lru.stepOp, Simple.set_evict_eq hks hfulls hbs,
                Lru.set_full_eq hk hfull hb, httl, hcancel, hcap, hitems, hqueue,
                eraseTTL]
      · have hfulls : (s.items.length : Int) ≠ s.cap := by
          rw [hitems, hcap]
          exact hfull
        constructor
        · simp [Simple.stepOp, Lru.stepOp, Simple.set_insert_eq hks hfulls,
            Lru.set_spare_eq hk hfull]
        · refine ⟨hwf.set, ?_, ?_, ?_, ?_, ?_⟩ <;>
            simp [Simple.stepOp, Lru.stepOp, Simple.set_insert_eq hks hfulls,
              Lru.set_spare_eq hk hfull, httl, hcancel, hcap, hitems, hqueue,
              eraseTTL]
  | cget k t =>
    by_cases hk : k ∈ l.items
    · have hks : k ∈ s.items := by rw [hitems]; exact hk
      obtain ⟨it, hf⟩ := hwf.find_of_mem hk
      have hfs : findByKey Simple.ListItem.key k s.queue = some (eraseTTL it) := by
        rw [hqueue, findByKey_map eraseTTL_key l.queue, hf]
        rfl
      have hlit : (if 0 < l.ttl then { it with expiresAt := t + l.ttl } else it)
          = it := by
        rw [httl]
        simp
      constructor
      · simp [Simple.stepOp, Lru.stepOp, Simple.get_hit_eq hks hfs,
          Lru.get_found_eq hk hf, eraseTTL]
      · refine ⟨hwf.get, ?_, ?_, ?_, ?_, ?_⟩ <;>
          simp [Simple.stepOp, Lru.stepOp, Simple.get_hit_eq hks hfs,
            Lru.get_found_eq hk hf, httl, hcancel, hcap, hitems, hqueue, hlit,
            removeByKey_map eraseTTL_key l.queue]
    · have hks : k ∉ s.items := by rw [hitems]; exact hk
      constructor
      · simp [Simple.stepOp, Lru.stepOp, Simple.get_miss_eq hks,
          Lru.get_absent_eq hk]
      · refine ⟨hwf.get, ?_, ?_, ?_, ?_, ?_⟩ <;>
          simp [Simple.stepOp, Lru.stepOp, Simple.get_miss_eq hks,
            Lru.get_absent_eq hk, httl, hcancel, hcap, hitems, hqueue]

theorem simRel_runOps {V : Type} (ops : List (COp V)) :
    ∀ (s : Simple.LRUCache V) (l : Lru.LRUCache V), SimRel s l →
      (Simple.runOps s ops).2 = (Lru.runOps l ops).2 ∧
      SimRel (Simple.runOps s ops).1 (Lru.runOps l ops).1 := by
  induction ops with
  | nil => exact fun s l h => ⟨rfl, h⟩
  | cons op rest ih =>
    intro s l h
    obtain ⟨hres, hrel⟩ := simRel_step h op
    obtain ⟨hres', hrel'⟩ := ih (Simple.stepOp s op).1 (Lru.stepOp l op).1 hrel
    constructor
    · simp [Simple.runOps, Lru.runOps, hres, hres']
    · simpa [Simple.runOps, Lru.runOps] using hrel'

/-- C10: constructed without the TTL option, the TTL-capable cache of src/lru.go
refines the standalone cache of src/lruCache.go: both constructors fail together
(with the same error) or succeed together, and on success every sequence of
Set/Get/Clear calls returns the same results on both, with the two caches
holding the same capacity, the same index, and entrywise the same ordering at
the end (hence throughout, by applying the statement to each call sequence). -/
theorem c10_simple_refinement {V : Type} (cap : Int) (ops : List (COp V)) :
    ((Simple.New cap : Except CacheErr (Simple.LRUCache V)).isOk
      = (Lru.New cap ([] : List (Lru.CacheOption V))).isOk) ∧
    (∀ e1 e2, (Simple.New cap : Except CacheErr (Simple.LRUCache V)) = Except.error e1 →
      Lru.New cap ([] : List (Lru.CacheOption V)) = Except.error e2 → e1 = e2) ∧
    (∀ s0 l0, (Simple.New cap : Except CacheErr (Simple.LRUCache V)) = Except.ok s0 →
      Lru.New cap ([] : List (Lru.CacheOption V)) = Except.ok l0 →
      (Simple.runOps s0 ops).2 = (Lru.runOps l0 ops).2 ∧
      SimRel (Simple.runOps s0 ops).1 (Lru.runOps l0 ops).1) := by
  by_cases hc : cap ≤ 0
  · refine ⟨?_, ?_, ?_⟩
    · simp only [Simple.New, Lru.New, hc, if_pos]
      rfl
    · intro e1 e2 h1 h2
      simp [Simple.New, hc] at h1
      simp [Lru.New, hc] at h2
      rw [← h1, ← h2]
    · intro s0 l0 h1 h2
      simp [Simple.New, hc] at h1
  · have hok : Lru.New cap ([] : List (Lru.CacheOption V)) =
        Except.ok
          { cap := cap, ttl := 0, hasCancel := false, sweeperRunning := false,
            sweeperPeriod := 0, items := [], queue := [] } := by
      unfold Lru.New
      rw [if_neg hc]
      rfl
    refine ⟨?_, ?_, ?_⟩
    · rw [hok]
      simp only [Simple.New, hc, if_neg, ite_false, Except.isOk, Except.toBool]
    · intro e1 e2 h1 h2
      rw [hok] at h2
      exact absurd h2 (by simp)
    · intro s0 l0 h1 h2
      rw [hok] at h2
      have hl0 := (Except.ok.inj h2).symm
      have hs0 : s0 = { cap := cap, items := [], queue := [] } := by
        simp [Simple.New, hc] at h1
        exact h1.symm
      subst hl0
      subst hs0
      refine simRel_runOps ops _ _ ?_
      refine ⟨Lru.WF.mk' (by simp) (by simp) (by simp; omega) (by simp; omega)
        (by simp) (by simp) (by simp), rfl, rfl, rfl, rfl, rfl⟩

/-- C10 witness: on capacity 2, the call sequence Set "x" 5, Get "x", Clear
returns the same results on both implementations. -/
theorem c10_simple_refinement_witness :
    (Simple.runOps ({ cap := 2, items := [], queue := [] } : Simple.LRUCache Nat)
        [COp.cset "x" 5 0, COp.cget "x" 1, COp.cclear]).2 =
      (Lru.runOps lruF [COp.cset "x" 5 0, COp.cget "x" 1, COp.cclear]).2 :=
  ((c10_simple_refinement 2 [COp.cset "x" 5 0, COp.cget "x" 1, COp.cclear]).2.2
    { cap := 2, items := [], queue := [] } lruF rfl rfl).1
